import Mathlib

/-!
Verification of the bowling-game scorer (`bowling_game.py`).

The embedding mirrors the Python class `BowlingGame`:
the state is the list `rolls : List Int`; each method becomes a pure
function over that list.  Fallible index accesses (`self.rolls[k]`,
which raises `IndexError` out of bounds) are modelled with `List.get?`
and an `Option` result; the two `ValueError` raise sites of `roll`
become the constructors of `RollError`.
-/

namespace BowlingGame

/-- The two failure kinds raised by `roll` (both `ValueError` in Python):
pins out of range, and rolling on a finished game. -/
inductive RollError where
  | invalidRollValue
  | gameAlreadyComplete
deriving DecidableEq, Repr

/-- `_is_strike`: `roll_index < len(self.rolls) and self.rolls[roll_index] == 10`. -/
def is_strike (rolls : List Int) (roll_index : Nat) : Bool :=
  decide (roll_index < rolls.length ∧ rolls.getD roll_index 0 = 10)

/-- `_is_spare`: `roll_index + 1 < len(self.rolls) and
self.rolls[roll_index] + self.rolls[roll_index + 1] == 10`. -/
def is_spare (rolls : List Int) (roll_index : Nat) : Bool :=
  decide (roll_index + 1 < rolls.length ∧
    rolls.getD roll_index 0 + rolls.getD (roll_index + 1) 0 = 10)

/-- `_strike_bonus`: `sum(self.rolls[roll_index + 1 : roll_index + 3])`
(a Python slice truncates silently at the end of the list). -/
def strike_bonus (rolls : List Int) (roll_index : Nat) : Int :=
  ((rolls.drop (roll_index + 1)).take 2).sum

/-- `_spare_bonus`: `self.rolls[roll_index + 2] if roll_index + 2 < len(self.rolls) else 0`. -/
def spare_bonus (rolls : List Int) (roll_index : Nat) : Int :=
  if roll_index + 2 < rolls.length then rolls.getD (roll_index + 2) 0 else 0

/-- The `for frame in range(10)` loop of `score`, with the remaining frame
count as fuel.  The open-frame branch indexes `self.rolls[roll_index]` and
`self.rolls[roll_index + 1]` without a bound check, so it is modelled with
`List.get?`; `none` is the `IndexError` of the Python code. -/
def score_loop (rolls : List Int) : Nat → Nat → Int → Option Int
  | 0, _, result => some result
  | frames + 1, roll_index, result =>
    if is_strike rolls roll_index then
      score_loop rolls frames (roll_index + 1) (result + (10 + strike_bonus rolls roll_index))
    else if is_spare rolls roll_index then
      score_loop rolls frames (roll_index + 2) (result + (10 + spare_bonus rolls roll_index))
    else
      match rolls[roll_index]?, rolls[roll_index + 1]? with
      | some a, some b => score_loop rolls frames (roll_index + 2) (result + (a + b))
      | _, _ => none

/-- `score`: ten frames, cursor and accumulator start at 0. -/
def score (rolls : List Int) : Option Int :=
  score_loop rolls 10 0 0

/-- The `for _ in range(9)` loop of `is_finished`: returns the cursor after
the first nine frames, or `none` where the Python code returns `False`
because `roll_index >= len(self.rolls)`. -/
def frames_walk (rolls : List Int) : Nat → Nat → Option Nat
  | 0, roll_index => some roll_index
  | n + 1, roll_index =>
    if rolls.length ≤ roll_index then none
    else if rolls.getD roll_index 0 = 10 then frames_walk rolls n (roll_index + 1)
    else frames_walk rolls n (roll_index + 2)

/-- The tenth-frame part of `is_finished` (lines 103-118): `first` is
`self.rolls[roll_index]`; `second is not None` is `roll_index + 1 <
len(self.rolls)`, and where `second` is read it is in bounds, so it is
`rolls.getD (roll_index + 1) 0`. -/
def tenth_frame (rolls : List Int) (roll_index : Nat) : Bool :=
  if rolls.length ≤ roll_index then false
  else if rolls.getD roll_index 0 = 10 then
    decide (rolls.length ≥ roll_index + 3)
  else if roll_index + 1 < rolls.length ∧
      rolls.getD roll_index 0 + rolls.getD (roll_index + 1) 0 = 10 then
    decide (rolls.length ≥ roll_index + 3)
  else
    decide (roll_index + 1 < rolls.length)

/-- `is_finished`: walk frames one to nine, then decide the tenth frame. -/
def is_finished (rolls : List Int) : Bool :=
  match frames_walk rolls 9 0 with
  | none => false
  | some roll_index => tenth_frame rolls roll_index

/-- `roll`: the result of the call (the raised error, or `ok`) paired with
the state of `self.rolls` after the call.  The checks run before the
append, so on an error the list is returned unchanged. -/
def roll (rolls : List Int) (pins : Int) : Except RollError Unit × List Int :=
  if pins < 0 ∨ pins > 10 then (Except.error RollError.invalidRollValue, rolls)
  else if is_finished rolls then (Except.error RollError.gameAlreadyComplete, rolls)
  else (Except.ok (), rolls ++ [pins])

/-- `roll_many` of the test helpers: record each value in turn; a raised
error stops the run (the exception propagates). -/
def roll_many (rolls : List Int) : List Int → Except RollError Unit × List Int
  | [] => (Except.ok (), rolls)
  | p :: ps =>
    match roll rolls p with
    | (Except.ok _, rolls2) => roll_many rolls2 ps
    | (Except.error e, rolls2) => (Except.error e, rolls2)

/-- The states reachable from a new game (`__init__` gives `rolls = []`)
by successful `roll` calls. -/
inductive Reachable : List Int → Prop
  | init : Reachable []
  | step {rolls rolls2 : List Int} {pins : Int} :
      Reachable rolls → roll rolls pins = (Except.ok (), rolls2) → Reachable rolls2

/-- The ten-frame walk exactly as the specification words it: at cursor `i`,
a strike (`rolls[i] == 10`) adds `10 + rolls[i+1] + rolls[i+2]` and advances
by 1; else a spare (`rolls[i] + rolls[i+1] == 10`) adds `10 + rolls[i+2]` and
advances by 2; else the open frame adds `rolls[i] + rolls[i+1]` and advances
by 2.  Written from the specification's words for comparison with `score`. -/
def spec_frame_walk (rolls : List Int) : Nat → Nat → Int
  | 0, _ => 0
  | n + 1, i =>
    if rolls.getD i 0 = 10 then
      (10 + rolls.getD (i + 1) 0 + rolls.getD (i + 2) 0) + spec_frame_walk rolls n (i + 1)
    else if rolls.getD i 0 + rolls.getD (i + 1) 0 = 10 then
      (10 + rolls.getD (i + 2) 0) + spec_frame_walk rolls n (i + 2)
    else
      (rolls.getD i 0 + rolls.getD (i + 1) 0) + spec_frame_walk rolls n (i + 2)

/-- The specification's total: the ten-frame walk starting at cursor 0. -/
def spec_total_score (rolls : List Int) : Int :=
  spec_frame_walk rolls 10 0

/-- The specification's completion walk for frames one to nine: advance the
cursor by 1 on a strike, else by 2, failing when the cursor reaches the end
of the rolls.  Written from the specification's words. -/
def spec_walk_nine (rolls : List Int) : Nat → Nat → Option Nat
  | 0, i => some i
  | n + 1, i =>
    if i ≥ rolls.length then none
    else if rolls.getD i 0 = 10 then spec_walk_nine rolls n (i + 1)
    else spec_walk_nine rolls n (i + 2)

/-- Completion exactly as the specification words it: walk frames one to
nine, then the tenth frame is complete iff, when it opens with a strike or a
spare, `len(rolls) >= i + 3`, and otherwise iff the second roll at `i + 1`
is present.  Written from the specification's words for comparison with
`is_finished`. -/
def spec_is_complete (rolls : List Int) : Bool :=
  match spec_walk_nine rolls 9 0 with
  | none => false
  | some i =>
    if i ≥ rolls.length then false
    else if rolls.getD i 0 = 10 ∨ (rolls[i + 1]?.isSome ∧
        rolls.getD i 0 + rolls.getD (i + 1) 0 = 10) then
      decide (rolls.length ≥ i + 3)
    else
      rolls[i + 1]?.isSome

/-- `score` viewed with its (absent) effect on `self.rolls`: the method body
only reads the list, so the state component is returned unchanged. -/
def score_state (rolls : List Int) : Option Int × List Int :=
  (score rolls, rolls)

/-- `is_finished` viewed with its (absent) effect on `self.rolls`. -/
def is_finished_state (rolls : List Int) : Bool × List Int :=
  (is_finished rolls, rolls)

/-- An incomplete game: nine open zero frames, then a spare in the tenth
frame still waiting for its bonus roll. -/
def pending_spare_game : List Int :=
  List.replicate 18 0 ++ [5, 5]

/-! Helper lemmas. -/

lemma is_strike_eq_true_iff (rolls : List Int) (i : Nat) :
    is_strike rolls i = true ↔ (i < rolls.length ∧ rolls.getD i 0 = 10) := by
  simp [is_strike]

lemma is_spare_eq_true_iff (rolls : List Int) (i : Nat) :
    is_spare rolls i = true ↔
      (i + 1 < rolls.length ∧ rolls.getD i 0 + rolls.getD (i + 1) 0 = 10) := by
  simp [is_spare]

lemma getElem?_eq_some_getD {rolls : List Int} {k : Nat} (h : k < rolls.length) :
    rolls[k]? = some (rolls.getD k 0) := by
  rw [List.getElem?_eq_getElem h, List.getD_eq_getElem _ _ h]

lemma getD_of_len_le {rolls : List Int} {k : Nat} (h : rolls.length ≤ k) :
    rolls.getD k 0 = 0 := by
  rw [List.getD_eq_getElem?_getD, List.getElem?_len_le h]
  rfl

lemma isSome_getElem?_iff (rolls : List Int) (k : Nat) :
    rolls[k]?.isSome = true ↔ k < rolls.length := by
  constructor
  · intro h
    by_contra hc
    push_neg at hc
    rw [List.getElem?_len_le hc] at h
    simp at h
  · intro h
    rw [List.getElem?_eq_getElem h]
    rfl

lemma strike_bonus_eq {rolls : List Int} {i : Nat} (h : i + 2 < rolls.length) :
    strike_bonus rolls i = rolls.getD (i + 1) 0 + rolls.getD (i + 2) 0 := by
  have h1 : i + 1 < rolls.length := by omega
  rw [strike_bonus, List.drop_eq_getElem_cons h1, List.drop_eq_getElem_cons h,
    List.getD_eq_getElem _ _ h1, List.getD_eq_getElem _ _ h]
  simp only [List.take_succ_cons, List.take_zero, List.sum_cons, List.sum_nil, add_zero]

lemma frames_walk_le {rolls : List Int} :
    ∀ {n i j : Nat}, frames_walk rolls n i = some j → i ≤ j := by
  intro n
  induction n with
  | zero =>
    intro i j h
    simp only [frames_walk, Option.some.injEq] at h
    omega
  | succ n ih =>
    intro i j h
    rw [frames_walk] at h
    by_cases h0 : rolls.length ≤ i
    · rw [if_pos h0] at h
      exact absurd h (by simp)
    · rw [if_neg h0] at h
      by_cases h1 : rolls.getD i 0 = 10
      · rw [if_pos h1] at h
        have := ih h
        omega
      · rw [if_neg h1] at h
        have := ih h
        omega

lemma tenth_frame_eq_true_iff (rolls : List Int) (j : Nat) :
    tenth_frame rolls j = true ↔
      ((rolls.getD j 0 = 10 ∨ (j + 1 < rolls.length ∧
          rolls.getD j 0 + rolls.getD (j + 1) 0 = 10)) ∧ j + 3 ≤ rolls.length) ∨
      (j + 1 < rolls.length ∧ rolls.getD j 0 ≠ 10 ∧
        rolls.getD j 0 + rolls.getD (j + 1) 0 ≠ 10) := by
  rw [tenth_frame]
  by_cases h0 : rolls.length ≤ j
  · rw [if_pos h0]
    have h1 : rolls.getD j 0 = 0 := getD_of_len_le h0
    simp only [Bool.false_eq_true, false_iff]
    omega
  · rw [if_neg h0]
    by_cases h1 : rolls.getD j 0 = 10
    · rw [if_pos h1]
      simp only [decide_eq_true_eq, ge_iff_le]
      omega
    · rw [if_neg h1]
      by_cases h2 : j + 1 < rolls.length ∧
          rolls.getD j 0 + rolls.getD (j + 1) 0 = 10
      · rw [if_pos h2]
        simp only [decide_eq_true_eq, ge_iff_le]
        omega
      · rw [if_neg h2]
        simp only [decide_eq_true_eq]
        omega

lemma tenth_frame_bound {rolls : List Int} {j : Nat} (h : tenth_frame rolls j = true) :
    j + 1 < rolls.length := by
  rw [tenth_frame_eq_true_iff] at h
  have hx : rolls.getD j 0 = 10 → j < rolls.length := by
    intro hten
    by_contra hc
    push_neg at hc
    rw [getD_of_len_le hc] at hten
    omega
  omega

lemma tenth_frame_bound3 {rolls : List Int} {j : Nat} (h : tenth_frame rolls j = true)
    (hten : rolls.getD j 0 = 10 ∨ rolls.getD j 0 + rolls.getD (j + 1) 0 = 10) :
    j + 3 ≤ rolls.length := by
  rw [tenth_frame_eq_true_iff] at h
  omega

/-- On a complete game the scoring loop never hits an out-of-bounds access
and agrees, frame by frame, with the specification's walk: if after this
frame group the completion walk lands on a cursor `j` whose tenth frame is
complete, then running the scoring loop for these frames plus the tenth one
returns the accumulator plus the specification's walk value. -/
lemma score_loop_complete (rolls : List Int) :
    ∀ (n : Nat) (i : Nat) (total : Int) {j : Nat},
      frames_walk rolls n i = some j → tenth_frame rolls j = true →
      score_loop rolls (n + 1) i total = some (total + spec_frame_walk rolls (n + 1) i) := by
  intro n
  induction n with
  | zero =>
    intro i total j hw ht
    have hij : i = j := by
      simpa only [frames_walk, Option.some.injEq] using hw
    subst hij
    have hb := tenth_frame_bound ht
    by_cases hstrike : rolls.getD i 0 = 10
    · have hlen3 : i + 3 ≤ rolls.length := tenth_frame_bound3 ht (Or.inl hstrike)
      have hst : is_strike rolls i = true :=
        (is_strike_eq_true_iff rolls i).mpr ⟨by omega, hstrike⟩
      rw [score_loop, if_pos hst, score_loop,
        strike_bonus_eq (by omega : i + 2 < rolls.length),
        spec_frame_walk, if_pos hstrike, spec_frame_walk]
      congr 1
      ring
    · by_cases hsp : rolls.getD i 0 + rolls.getD (i + 1) 0 = 10
      · have hlen3 : i + 3 ≤ rolls.length := tenth_frame_bound3 ht (Or.inr hsp)
        have hstF : ¬is_strike rolls i = true := by
          rw [is_strike_eq_true_iff]
          rintro ⟨-, h⟩
          exact hstrike h
        have hspT : is_spare rolls i = true :=
          (is_spare_eq_true_iff rolls i).mpr ⟨by omega, hsp⟩
        rw [score_loop, if_neg hstF, if_pos hspT, score_loop,
          spare_bonus, if_pos (by omega : i + 2 < rolls.length),
          spec_frame_walk, if_neg hstrike, if_pos hsp, spec_frame_walk]
        congr 1
        ring
      · have hstF : ¬is_strike rolls i = true := by
          rw [is_strike_eq_true_iff]
          rintro ⟨-, h⟩
          exact hstrike h
        have hspF : ¬is_spare rolls i = true := by
          rw [is_spare_eq_true_iff]
          rintro ⟨-, h⟩
          exact hsp h
        rw [score_loop, if_neg hstF, if_neg hspF]
        simp only [getElem?_eq_some_getD (by omega : i < rolls.length),
          getElem?_eq_some_getD (by omega : i + 1 < rolls.length)]
        rw [score_loop, spec_frame_walk, if_neg hstrike, if_neg hsp, spec_frame_walk]
        congr 1
        ring
  | succ n ih =>
    intro i total j hw ht
    rw [frames_walk] at hw
    by_cases h0 : rolls.length ≤ i
    · rw [if_pos h0] at hw
      exact absurd hw (by simp)
    · rw [if_neg h0] at hw
      have hjb := tenth_frame_bound ht
      by_cases hstrike : rolls.getD i 0 = 10
      · rw [if_pos hstrike] at hw
        have hile := frames_walk_le hw
        have h2 : i + 2 < rolls.length := by omega
        have hst : is_strike rolls i = true :=
          (is_strike_eq_true_iff rolls i).mpr ⟨by omega, hstrike⟩
        rw [score_loop, if_pos hst]
        conv_rhs => rw [spec_frame_walk, if_pos hstrike]
        rw [ih _ _ hw ht, strike_bonus_eq h2]
        congr 1
        ring
      · rw [if_neg hstrike] at hw
        have hile := frames_walk_le hw
        have h2 : i + 2 < rolls.length := by omega
        have hstF : ¬is_strike rolls i = true := by
          rw [is_strike_eq_true_iff]
          rintro ⟨-, h⟩
          exact hstrike h
        by_cases hsp : rolls.getD i 0 + rolls.getD (i + 1) 0 = 10
        · have hspT : is_spare rolls i = true :=
            (is_spare_eq_true_iff rolls i).mpr ⟨by omega, hsp⟩
          rw [score_loop, if_neg hstF, if_pos hspT]
          conv_rhs => rw [spec_frame_walk, if_neg hstrike, if_pos hsp]
          rw [ih _ _ hw ht, spare_bonus, if_pos h2]
          congr 1
          ring
        · have hspF : ¬is_spare rolls i = true := by
            rw [is_spare_eq_true_iff]
            rintro ⟨-, h⟩
            exact hsp h
          rw [score_loop, if_neg hstF, if_neg hspF]
          simp only [getElem?_eq_some_getD (by omega : i < rolls.length),
            getElem?_eq_some_getD (by omega : i + 1 < rolls.length)]
          conv_rhs => rw [spec_frame_walk, if_neg hstrike, if_neg hsp]
          rw [ih _ _ hw ht]
          congr 1
          ring

lemma is_finished_eq_true_iff (rolls : List Int) :
    is_finished rolls = true ↔
      ∃ j, frames_walk rolls 9 0 = some j ∧ tenth_frame rolls j = true := by
  rw [is_finished]
  cases hw : frames_walk rolls 9 0 <;> simp [hw]

lemma frames_walk_eq_spec_walk (rolls : List Int) :
    ∀ n i, frames_walk rolls n i = spec_walk_nine rolls n i := by
  intro n
  induction n with
  | zero =>
    intro i
    simp [frames_walk, spec_walk_nine]
  | succ n ih =>
    intro i
    rw [frames_walk, spec_walk_nine]
    simp only [ge_iff_le]
    split_ifs with h1 h2
    · rfl
    · exact ih (i + 1)
    · exact ih (i + 2)

lemma spec_is_complete_eq_true_iff (rolls : List Int) :
    spec_is_complete rolls = true ↔
      ∃ j, spec_walk_nine rolls 9 0 = some j ∧ tenth_frame rolls j = true := by
  rw [spec_is_complete]
  cases hw : spec_walk_nine rolls 9 0 with
  | none => simp [hw]
  | some j =>
    simp only [hw, Option.some.injEq, exists_eq_left']
    rw [tenth_frame_eq_true_iff]
    by_cases h0 : j ≥ rolls.length
    · rw [if_pos h0]
      have h1 : rolls.getD j 0 = 0 := getD_of_len_le h0
      simp only [Bool.false_eq_true, false_iff]
      omega
    · rw [if_neg h0]
      by_cases h1 : rolls.getD j 0 = 10 ∨
          (rolls[j + 1]?.isSome ∧ rolls.getD j 0 + rolls.getD (j + 1) 0 = 10)
      · rw [if_pos h1]
        have h2 := isSome_getElem?_iff rolls (j + 1)
        simp only [decide_eq_true_eq, ge_iff_le]
        rw [h2] at h1
        omega
      · rw [if_neg h1]
        have h2 := isSome_getElem?_iff rolls (j + 1)
        rw [h2]
        rw [h2] at h1
        push_neg at h1
        omega

/-- Inversion of a successful `roll` call: the pin value passed both checks
and the new state is the old list with the value appended. -/
lemma roll_ok_inv {rolls rolls2 : List Int} {pins : Int}
    (h : roll rolls pins = (Except.ok (), rolls2)) :
    ¬(pins < 0 ∨ pins > 10) ∧ is_finished rolls = false ∧ rolls2 = rolls ++ [pins] := by
  rw [roll] at h
  by_cases h1 : pins < 0 ∨ pins > 10
  · rw [if_pos h1] at h
    exact absurd h (by simp)
  · rw [if_neg h1] at h
    by_cases h2 : is_finished rolls = true
    · rw [if_pos h2] at h
      exact absurd h (by simp)
    · rw [if_neg h2] at h
      refine ⟨h1, by simpa using h2, ?_⟩
      have := congrArg Prod.snd h
      simpa using this.symm

/-- A successful `roll_many` run only chains successful `roll` calls, so it
preserves reachability. -/
lemma reachable_of_roll_many {r r2 : List Int} {ps : List Int} (h0 : Reachable r)
    (h : roll_many r ps = (Except.ok (), r2)) : Reachable r2 := by
  induction ps generalizing r with
  | nil =>
    rw [roll_many] at h
    have := congrArg Prod.snd h
    simp only at this
    exact this ▸ h0
  | cons p ps ih =>
    rw [roll_many] at h
    split at h
    next u rolls2 hq =>
      cases u
      exact ih (Reachable.step h0 hq) h
    next e rolls2 hq =>
      exact absurd h (by simp)

/-- No reachable state was complete at any earlier stage: every proper
stage (a shorter take of the roll list) has `is_finished` false, because
the roll that extended it was accepted. -/
lemma reachable_take_not_finished {rolls : List Int} (h : Reachable rolls) :
    ∀ k, k < rolls.length → is_finished (rolls.take k) = false := by
  induction h with
  | init =>
    intro k hk
    simp at hk
  | step hr heq ih =>
    rename_i r r2 p
    obtain ⟨-, hfin, rfl⟩ := roll_ok_inv heq
    intro k hk
    rw [List.length_append, List.length_singleton] at hk
    by_cases hkr : k < r.length
    · rw [List.take_append_of_le_length (by omega)]
      exact ih k hkr
    · have hk2 : k = r.length := by omega
      rw [hk2, List.take_left]
      exact hfin

/-! Claims. -/

/-- Claim C1 (code behaviour at the failing input): the claim demands that
`total_score` fail with an `IncompleteGameScoring` error on every roll
sequence whose game is incomplete, but the code has no such guard: on nine
open zero frames followed by a tenth-frame spare that still awaits its
bonus roll, `is_finished` is false yet `score` returns the integer 10
(the guarded `_spare_bonus` silently contributes 0). -/
theorem score_returns_value_on_incomplete_game :
    is_finished pending_spare_game = false ∧ score pending_spare_game = some 10 :=
  ⟨by decide, by decide⟩

/-- Claim C2: on every roll sequence on which `is_finished` is true,
`score` succeeds and equals the specification's ten-frame walk
(strike: add `10 + rolls[i+1] + rolls[i+2]`, advance 1; spare: add
`10 + rolls[i+2]`, advance 2; open: add `rolls[i] + rolls[i+1]`,
advance 2). -/
theorem total_score_eq_spec_walk_of_complete (rolls : List Int)
    (h : is_finished rolls = true) :
    score rolls = some (spec_total_score rolls) := by
  rw [is_finished_eq_true_iff] at h
  obtain ⟨j, hw, ht⟩ := h
  have := score_loop_complete rolls 9 0 0 hw ht
  rw [score, spec_total_score]
  rw [this]
  rw [zero_add]

/-- Witness for claim C2 at a concrete complete game: twenty rolls of one
pin each. -/
theorem total_score_eq_spec_walk_witness :
    is_finished (List.replicate 20 1) = true ∧
      score (List.replicate 20 1) = some (spec_total_score (List.replicate 20 1)) :=
  ⟨by decide, total_score_eq_spec_walk_of_complete (List.replicate 20 1) (by decide)⟩

/-- Claim C3: `is_finished` agrees with the specification's positional
completion walk on every roll sequence. -/
theorem is_complete_eq_spec_walk (rolls : List Int) :
    is_finished rolls = spec_is_complete rolls := by
  by_cases hf : is_finished rolls = true
  · rw [hf]
    symm
    rw [spec_is_complete_eq_true_iff]
    rw [is_finished_eq_true_iff] at hf
    obtain ⟨j, hw, ht⟩ := hf
    exact ⟨j, by rw [← frames_walk_eq_spec_walk]; exact hw, ht⟩
  · have hf2 : is_finished rolls = false := by simpa using hf
    rw [hf2]
    symm
    by_contra hc
    have hc2 : spec_is_complete rolls = true := by
      cases h : spec_is_complete rolls
      · exact absurd h hc
      · rfl
    rw [spec_is_complete_eq_true_iff] at hc2
    obtain ⟨j, hw, ht⟩ := hc2
    rw [← frames_walk_eq_spec_walk] at hw
    exact hf ((is_finished_eq_true_iff rolls).mpr ⟨j, hw, ht⟩)

/-- Claim C4: the value-range check of `roll` runs before the completion
check, so an out-of-range pin count on an already-finished game reports
`invalidRollValue`, not `gameAlreadyComplete`. -/
theorem invalid_value_reported_on_complete_game (rolls : List Int) (pins : Int)
    (_hfin : is_finished rolls = true) (hout : pins < 0 ∨ pins > 10) :
    roll rolls pins = (Except.error RollError.invalidRollValue, rolls) := by
  rw [roll, if_pos hout]

/-- Witness for claim C4: a finished perfect game and the out-of-range
value 11. -/
theorem invalid_value_reported_witness :
    is_finished (List.replicate 12 10) = true ∧
      roll (List.replicate 12 10) 11 =
        (Except.error RollError.invalidRollValue, List.replicate 12 10) :=
  ⟨by decide,
    invalid_value_reported_on_complete_game (List.replicate 12 10) 11 (by decide)
      (Or.inr (by decide))⟩

/-- Claim C5: recording twelve consecutive rolls of 10 from a new game
succeeds, and the total score of the resulting perfect game is 300. -/
theorem perfect_game_scores_300 :
    roll_many [] (List.replicate 12 10) = (Except.ok (), List.replicate 12 10) ∧
      score (List.replicate 12 10) = some 300 :=
  ⟨rfl, by decide⟩

/-- Claim C6: whenever `roll` raises (either error kind), the roll list is
returned exactly as it was before the call. -/
theorem roll_error_leaves_rolls_unchanged (rolls : List Int) (pins : Int)
    (e : RollError) (h : (roll rolls pins).1 = Except.error e) :
    (roll rolls pins).2 = rolls := by
  rw [roll] at h ⊢
  by_cases h1 : pins < 0 ∨ pins > 10
  · rw [if_pos h1]
  · rw [if_neg h1] at h ⊢
    by_cases h2 : is_finished rolls = true
    · rw [if_pos h2]
    · rw [if_neg h2] at h
      exact absurd h (by simp)

/-- Witness for claim C6: rolling 11 on a new game fails and leaves the
empty roll list unchanged. -/
theorem roll_error_leaves_rolls_unchanged_witness :
    (roll [] 11).1 = Except.error RollError.invalidRollValue ∧ (roll [] 11).2 = [] :=
  ⟨rfl, roll_error_leaves_rolls_unchanged [] 11 RollError.invalidRollValue rfl⟩

/-- Claim C7: invariant I1 — in every state reachable from the empty game
by successful `roll` calls, every recorded roll value lies within
`[0, 10]`. -/
theorem reachable_rolls_within_range (rolls : List Int) (h : Reachable rolls) :
    ∀ x ∈ rolls, 0 ≤ x ∧ x ≤ 10 := by
  induction h with
  | init =>
    intro x hx
    simp at hx
  | step hr heq ih =>
    rename_i r r2 p
    obtain ⟨hp, -, rfl⟩ := roll_ok_inv heq
    intro x hx
    rw [List.mem_append, List.mem_singleton] at hx
    rcases hx with hx | rfl
    · exact ih x hx
    · omega

/-- Witness for claim C7: the state after one roll of 5 is reachable and
its single element is within range. -/
theorem reachable_rolls_within_range_witness :
    Reachable [(5 : Int)] ∧ (0 ≤ (5 : Int) ∧ (5 : Int) ≤ 10) :=
  have hr : Reachable [(5 : Int)] := @Reachable.step [] [5] 5 Reachable.init rfl
  ⟨hr, reachable_rolls_within_range [(5 : Int)] hr 5 (by simp)⟩

/-- Claim C8: on a reachable roll sequence that is complete, every proper
stage of the game (every shorter take of the list) has `is_finished`
false: completion first becomes true at the final recorded roll. -/
theorem complete_only_at_final_roll (rolls : List Int) (hr : Reachable rolls)
    (_hfin : is_finished rolls = true) :
    ∀ k, k < rolls.length → is_finished (rolls.take k) = false :=
  fun k hk => reachable_take_not_finished hr k hk

/-- Witness for claim C8: the perfect game is reachable and complete, and
its eleven-roll stage is not complete. -/
theorem complete_only_at_final_roll_witness :
    Reachable (List.replicate 12 10) ∧ is_finished (List.replicate 12 10) = true ∧
      is_finished ((List.replicate 12 10).take 11) = false :=
  have hr : Reachable (List.replicate 12 10) :=
    @reachable_of_roll_many [] (List.replicate 12 10) (List.replicate 12 10)
      Reachable.init rfl
  ⟨hr, by decide,
    complete_only_at_final_roll (List.replicate 12 10) hr (by decide) 11 (by decide)⟩

/-- Claim C9: `score` and `is_finished` leave the roll list unchanged, so
a second `score` call on the state left by the first returns the same
value. -/
theorem score_and_is_finished_pure (rolls : List Int) :
    (score_state rolls).2 = rolls ∧ (is_finished_state rolls).2 = rolls ∧
      (score_state (score_state rolls).2).1 = (score_state rolls).1 :=
  ⟨rfl, rfl, rfl⟩

/-- Claim C10: `roll` succeeds and appends exactly when the value is in
`[0, 10]` and the game is unfinished; in particular no per-frame pin-sum
validation happens, so a 9 recorded after a 9 is accepted. -/
theorem roll_accepts_iff_in_range_and_unfinished :
    (∀ (rolls : List Int) (pins : Int),
      roll rolls pins = (Except.ok (), rolls ++ [pins]) ↔
        (0 ≤ pins ∧ pins ≤ 10 ∧ is_finished rolls = false)) ∧
    roll [9] 9 = (Except.ok (), [9, 9]) := by
  constructor
  · intro rolls pins
    constructor
    · intro h
      obtain ⟨hp, hfin, -⟩ := roll_ok_inv h
      exact ⟨by omega, by omega, hfin⟩
    · rintro ⟨h0, h10, hfin⟩
      rw [roll, if_neg (by omega), if_neg (by simp [hfin])]
  · rfl

end BowlingGame
